import Mathlib

/-!
Verification of the deterministic distributed-systems test harness
(network simulator, fake RPC server, text fixtures) against its
natural-language specification.  The Rust source is shallowly embedded:
the seeded PRNG is modelled as a stream of raw draws (`Rng`), the
`BTreeMap` of inboxes as an association list kept in ascending key
order, and machine integers as `Nat`.
-/

namespace Spec2Proof

/-- A PRNG is modelled as the stream of raw values it will produce.
`gen_range(lo..hi)` consumes one raw value and reduces it into the
half-open interval `[lo, hi)`, which is the contract of `rand::Rng`.
An exhausted stream keeps returning `lo`. -/
abbrev Rng := List Nat

def genRange (rng : Rng) (lo hi : Nat) : Nat × Rng :=
  match rng with
  | [] => (lo, [])
  | x :: rest => (lo + x % (hi - lo), rest)

/-- `struct Envelope<T> { message: T, sender: ReplicaId }` -/
structure Envelope (T : Type) where
  message : T
  sender : Nat
  deriving DecidableEq

/-- `struct Network<T, R> { inboxes: BTreeMap<ReplicaId, Vec<Envelope<T>>>,
all_messages: Vec<T>, rng: R }`.  The `BTreeMap` is an association list
in ascending key order (the order `iter_mut` visits entries). -/
structure Network (T : Type) where
  inboxes : List (Nat × List (Envelope T))
  all_messages : List T
  rng : Rng
  deriving DecidableEq

variable {T : Type}

/-- `Network::new` -/
def Network.new (rng : Rng) : Network T :=
  { inboxes := [], all_messages := [], rng := rng }

/-- `BTreeMap::insert(id, Vec::new())`: insert keeping ascending key
order, replacing the value when the key is present. -/
def insertPeer (id : Nat) : List (Nat × List (Envelope T)) → List (Nat × List (Envelope T))
  | [] => [(id, [])]
  | (k, v) :: rest =>
    if id < k then (id, []) :: (k, v) :: rest
    else if id = k then (id, []) :: rest
    else (k, v) :: insertPeer id rest

/-- `Network::add_peer` -/
def Network.add_peer (net : Network T) (id : Nat) : Network T :=
  { net with inboxes := insertPeer id net.inboxes }

/-- `BTreeMap::get` -/
def lookupInbox (id : Nat) : List (Nat × List (Envelope T)) → Option (List (Envelope T))
  | [] => none
  | (k, v) :: rest => if k = id then some v else lookupInbox id rest

/-- Replace the value stored at `id` (the effect of mutating through
`get_mut`). -/
def updateInbox (id : Nat) (newInbox : List (Envelope T)) :
    List (Nat × List (Envelope T)) → List (Nat × List (Envelope T))
  | [] => []
  | (k, v) :: rest =>
    if k = id then (k, newInbox) :: rest else (k, v) :: updateInbox id newInbox rest

/-- `inbox.iter().enumerate().rev().find_map(|(index, envelope)|
if sender == envelope.sender { Some(index + 1) } else { None }).unwrap_or(0)`:
one past the last index whose envelope was sent by `sender`, or `0`. -/
def minIndex (sender : Nat) : List (Envelope T) → Nat
  | [] => 0
  | e :: rest =>
    if minIndex sender rest = 0 then (if e.sender = sender then 1 else 0)
    else minIndex sender rest + 1

/-- `Vec::insert(n, a)` (callers always supply `n ≤ length`). -/
def insertAt : Nat → α → List α → List α
  | 0, a, l => a :: l
  | _ + 1, a, [] => [a]
  | n + 1, a, x :: l => x :: insertAt n a l

/-- The inner `for _ in 0..k` loop of `Network::broadcast`: insert `k`
copies of the envelope, each at a fresh position drawn from
`[min_index, inbox.len()]`. -/
def insertCopies (sender : Nat) (m : T) (minIdx : Nat) :
    Nat → List (Envelope T) → Rng → List (Envelope T) × Rng
  | 0, inbox, rng => (inbox, rng)
  | k + 1, inbox, rng =>
    insertCopies sender m minIdx k
      (insertAt (genRange rng minIdx (inbox.length + 1)).1 ⟨m, sender⟩ inbox)
      (genRange rng minIdx (inbox.length + 1)).2

/-- Delivery of one message to one inbox: compute `min_index`, draw the
duplicate count from `gen_range(1..4)`, insert the copies. -/
def deliverMessage (sender : Nat) (m : T) (inbox : List (Envelope T)) (rng : Rng) :
    List (Envelope T) × Rng :=
  insertCopies sender m (minIndex sender inbox) (genRange rng 1 4).1 inbox (genRange rng 1 4).2

/-- The `for message in &messages` loop of `Network::broadcast`. -/
def deliverAll (sender : Nat) : List T → List (Envelope T) → Rng → List (Envelope T) × Rng
  | [], inbox, rng => (inbox, rng)
  | m :: ms, inbox, rng =>
    deliverAll sender ms (deliverMessage sender m inbox rng).1
      (deliverMessage sender m inbox rng).2

/-- The `for (replica, inbox) in self.inboxes.iter_mut()` loop of
`Network::broadcast`: every inbox except the sender's receives the
messages, in key order, threading the PRNG. -/
def broadcastInboxes (sender : Nat) (messages : List T) :
    List (Nat × List (Envelope T)) → Rng → List (Nat × List (Envelope T)) × Rng
  | [], rng => ([], rng)
  | (k, inbox) :: rest, rng =>
    if k ≠ sender then
      ((k, (deliverAll sender messages inbox rng).1) ::
          (broadcastInboxes sender messages rest (deliverAll sender messages inbox rng).2).1,
        (broadcastInboxes sender messages rest (deliverAll sender messages inbox rng).2).2)
    else
      ((k, inbox) :: (broadcastInboxes sender messages rest rng).1,
        (broadcastInboxes sender messages rest rng).2)

/-- `Network::broadcast` -/
def Network.broadcast (net : Network T) (sender : Nat) (messages : List T) : Network T :=
  { inboxes := (broadcastInboxes sender messages net.inboxes net.rng).1,
    all_messages := net.all_messages ++ messages,
    rng := (broadcastInboxes sender messages net.inboxes net.rng).2 }

/-- `Network::receive`: drain a random prefix of the receiver's inbox.
The `unwrap()` on an unregistered receiver is modelled by `none`. -/
def Network.receive (net : Network T) (receiver : Nat) :
    Option (List T × Network T) :=
  match lookupInbox receiver net.inboxes with
  | none => none
  | some inbox =>
    let cr := genRange net.rng 0 (inbox.length + 1)
    some ((inbox.take cr.1).map Envelope.message,
      { inboxes := updateInbox receiver (inbox.drop cr.1) net.inboxes,
        all_messages := net.all_messages,
        rng := cr.2 })

/-- `Network::is_idle` -/
def Network.is_idle (net : Network T) : Bool :=
  net.inboxes.all (fun kv => kv.2.isEmpty)

/-- `Network::has_unreceived` (`none` models the panic on an unknown key). -/
def Network.has_unreceived (net : Network T) (receiver : Nat) : Option Bool :=
  (lookupInbox receiver net.inboxes).map (fun inbox => !inbox.isEmpty)

/-- One test-visible operation on a `Network`. -/
inductive Call (T : Type) where
  | addPeer (id : Nat)
  | broadcast (sender : Nat) (messages : List T)
  | receive (receiver : Nat)

/-- Execute a sequence of calls, collecting the vector returned by each
`receive`.  A `receive` on an unregistered replica panics in the source,
modelled by `none`. -/
def runNet : Network T → List (Call T) → Option (Network T × List (List T))
  | net, [] => some (net, [])
  | net, Call.addPeer id :: cs => runNet (net.add_peer id) cs
  | net, Call.broadcast s ms :: cs => runNet (net.broadcast s ms) cs
  | net, Call.receive r :: cs =>
    match net.receive r with
    | none => none
    | some (out, net') =>
      match runNet net' cs with
      | none => none
      | some (netF, outs) => some (netF, out :: outs)

/-- All messages broadcast by sender `s` across a call sequence, in
call order. -/
def histOf (s : Nat) : List (Call T) → List T
  | [] => []
  | Call.broadcast s' ms :: cs => (if s' = s then ms else []) ++ histOf s cs
  | Call.addPeer _ :: cs => histOf s cs
  | Call.receive _ :: cs => histOf s cs

/-- Concatenation of the `messages` argument of every broadcast call,
in call order. -/
def broadcastLog : List (Call T) → List T
  | [] => []
  | Call.broadcast _ ms :: cs => ms ++ broadcastLog cs
  | Call.addPeer _ :: cs => broadcastLog cs
  | Call.receive _ :: cs => broadcastLog cs

/-- The envelopes of an inbox that were sent by `s`, in inbox order. -/
def senderFilter (s : Nat) (inbox : List (Envelope T)) : List (Envelope T) :=
  inbox.filter (fun e => e.sender == s)

/-- The messages of an inbox that were sent by `s`, in inbox order. -/
def projS (s : Nat) (inbox : List (Envelope T)) : List T :=
  (senderFilter s inbox).map Envelope.message

/-- `Dup hist p`: `p` is obtained from `hist` by replacing each element
with zero or more adjacent copies (so `p` respects the order of `hist`). -/
inductive Dup : List T → List T → Prop
  | nil : Dup [] []
  | skip (m : T) {h p : List T} : Dup h p → Dup (m :: h) p
  | copy (m : T) {h p : List T} : Dup (m :: h) p → Dup (m :: h) (m :: p)

/-- `Blocks s ms q`: `q` consists of one block of `1..=3` copies of
`⟨m, s⟩` for each message `m` of `ms`, in order. -/
inductive Blocks (s : Nat) : List T → List (Envelope T) → Prop
  | nil : Blocks s [] []
  | cons (m : T) (k : Nat) {ms : List T} {q : List (Envelope T)} :
      1 ≤ k → k ≤ 3 → Blocks s ms q →
      Blocks s (m :: ms) (List.replicate k ⟨m, s⟩ ++ q)

/-- Number of copies of the envelope `⟨m, s⟩` in an inbox. -/
def copies [DecidableEq T] (s : Nat) (m : T) : List (Envelope T) → Nat
  | [] => 0
  | e :: rest => (if e = ⟨m, s⟩ then 1 else 0) + copies s m rest

/-- Number of occurrences of `m` in a message list. -/
def occCount [DecidableEq T] (m : T) : List T → Nat
  | [] => 0
  | x :: rest => (if x = m then 1 else 0) + occCount m rest

/-! ### Fake server

`FakeServer::connect` is embedded over an explicit state record.  The
collaborators that are not part of this module (`Conn::in_memory`,
`Peer::connect`, `Peer::reconnect`) only produce fresh transport
handles; they are modelled by abstract `Nat` handles supplied through
`FreshHandles`, and `Peer::reconnect` is modelled as succeeding. -/

/-- `struct Connection { id, incoming, token, kill_tx }`; the stream and
sink are abstract handles. -/
structure Connection where
  id : Nat
  incoming : Nat
  token : Nat
  kill_tx : Nat
  deriving DecidableEq

/-- The mutable state of a `FakeServer`: the optional active connection
and the two atomic flags. -/
structure FakeServerState where
  connection : Option Connection
  forbid_new_connections : Bool
  forbid_reconnections : Bool
  deriving DecidableEq

/-- The fields of `rpc::ConnectionOptions` read by `FakeServer::connect`. -/
structure ConnectionOptions where
  is_reconnection : Bool
  connection_token : Nat
  deriving DecidableEq

/-- Fresh values produced by `Conn::in_memory()` and `Peer::connect`
during one `connect` call. -/
structure FreshHandles where
  conn_id : Nat
  incoming : Nat
  kill_tx : Nat
  client_conn : Nat
  deriving DecidableEq

/-- `FakeServer::connect`: returns the state after the call and either
the client end of the new transport or the error message. -/
def connect (st : FakeServerState) (opts : ConnectionOptions) (fresh : FreshHandles) :
    FakeServerState × Except String Nat :=
  if opts.is_reconnection then
    if st.forbid_reconnections then
      (st, Except.error "server is forbidding reconnections")
    else
      match st.connection with
      | some c =>
        if c.token = opts.connection_token then
          ({ st with connection := some { c with kill_tx := fresh.kill_tx } },
            Except.ok fresh.client_conn)
        else
          (st, Except.error "cannot re-establish connection")
      | none => (st, Except.error "cannot re-establish connection")
  else
    if st.forbid_new_connections then
      (st, Except.error "server is forbidding connections")
    else
      ({ st with connection := some (Connection.mk fresh.conn_id fresh.incoming
            opts.connection_token fresh.kill_tx) },
        Except.ok fresh.client_conn)

/-! ### Text fixture

`sample_text` builds its string with `push`/`+=`; the character of row
`i` is `('a' as u32 + i as u32) as u8 as char`, i.e. code
`(97 + i) % 256`.  Strings are modelled as their character lists,
wrapped with `String.mk`. -/

/-- `('a' as u32 + row as u32) as u8 as char` -/
def rustChar (row : Nat) : Char := Char.ofNat ((97 + row) % 256)

/-- One iteration of the `for row in 0..rows` loop: the row's character
repeated `cols` times, followed by a newline unless this is the last row. -/
def sampleLineChars (rows cols row : Nat) : List Char :=
  List.replicate cols (rustChar row) ++ (if row < rows - 1 then [Char.ofNat 10] else [])

/-- `sample_text(rows, cols)` -/
def sample_text (rows cols : Nat) : String :=
  String.mk ((List.range rows).foldl (fun text row => text ++ sampleLineChars rows cols row) [])

/-- Lines joined by a single newline with no trailing newline. -/
def joinLines : List (List Char) → List Char
  | [] => []
  | [l] => l
  | l :: ls => l ++ Char.ofNat 10 :: joinLines ls

/-- Modelled from the spec (the claim's reading of `sample_text`): `rows`
lines joined by single newlines with no trailing newline, where line `i`
is the character `'a' + i` (no byte truncation) repeated `cols` times. -/
def sample_text_claimed (rows cols : Nat) : String :=
  String.mk (joinLines ((List.range rows).map fun i => List.replicate cols (Char.ofNat (97 + i))))

/-- The closed form `sample_text` actually satisfies: as claimed, except
that the line character is truncated to a byte, code `(97 + i) % 256`. -/
def sample_text_mod (rows cols : Nat) : String :=
  String.mk (joinLines ((List.range rows).map fun i => List.replicate cols (rustChar i)))

/-- The first `n` full lines of a sample text, each with its trailing
newline. -/
def frontChars (cols n : Nat) : List Char :=
  (List.range n).foldl
    (fun t r => t ++ (List.replicate cols (rustChar r) ++ [Char.ofNat 10])) []

/-! ## Basic lemmas -/

theorem genRange_fst_lt (rng : Rng) (lo hi : Nat) (h : lo < hi) :
    (genRange rng lo hi).1 < hi := by
  cases rng with
  | nil => simpa [genRange] using h
  | cons x rest =>
    have hm : x % (hi - lo) < hi - lo := Nat.mod_lt x (by omega)
    simp only [genRange]
    omega

theorem genRange_le_fst (rng : Rng) (lo hi : Nat) : lo ≤ (genRange rng lo hi).1 := by
  cases rng with
  | nil => simp [genRange]
  | cons x rest => simp [genRange]

theorem lookup_insertPeer_self (id : Nat) (l : List (Nat × List (Envelope T))) :
    lookupInbox id (insertPeer id l) = some [] := by
  induction l with
  | nil => simp [insertPeer, lookupInbox]
  | cons kv rest ih =>
    obtain ⟨k, v⟩ := kv
    by_cases h1 : id < k
    · simp [insertPeer, h1, lookupInbox]
    · by_cases h2 : id = k
      · simp [insertPeer, h1, h2, lookupInbox]
      · have hk : ¬ k = id := fun h => h2 h.symm
        simp [insertPeer, h1, h2, lookupInbox, hk, ih]

theorem lookup_insertPeer_other (id r : Nat) (hr : r ≠ id) (l : List (Nat × List (Envelope T))) :
    lookupInbox r (insertPeer id l) = lookupInbox r l := by
  have hid : ¬ id = r := fun h => hr h.symm
  induction l with
  | nil => simp [insertPeer, lookupInbox, hid]
  | cons kv rest ih =>
    obtain ⟨k, v⟩ := kv
    unfold insertPeer
    by_cases h1 : id < k
    · simp [h1, lookupInbox, hid]
    · by_cases h2 : id = k
      · subst h2
        simp [h1, lookupInbox, hid]
      · simp [h1, h2, lookupInbox, ih]

theorem lookup_updateInbox_self (id : Nat) (v w : List (Envelope T))
    (l : List (Nat × List (Envelope T))) (h : lookupInbox id l = some w) :
    lookupInbox id (updateInbox id v l) = some v := by
  induction l with
  | nil => simp [lookupInbox] at h
  | cons kv rest ih =>
    obtain ⟨k, v'⟩ := kv
    by_cases hk : k = id
    · simp [updateInbox, hk, lookupInbox]
    · simp only [lookupInbox, if_neg hk] at h
      simp [updateInbox, hk, lookupInbox, ih h]

theorem lookup_updateInbox_other (id r : Nat) (hr : r ≠ id) (v : List (Envelope T))
    (l : List (Nat × List (Envelope T))) :
    lookupInbox r (updateInbox id v l) = lookupInbox r l := by
  induction l with
  | nil => simp [updateInbox]
  | cons kv rest ih =>
    obtain ⟨k, v'⟩ := kv
    unfold updateInbox
    by_cases hk : k = id
    · subst hk
      have hkr : ¬ k = r := fun h => hr h.symm
      simp [lookupInbox, hkr]
    · simp [hk, lookupInbox, ih]

/-! ## Structure of one broadcast delivery -/

theorem insertAt_eq {α : Type _} (n : Nat) (a : α) (l : List α) (h : n ≤ l.length) :
    insertAt n a l = l.take n ++ a :: l.drop n := by
  induction l generalizing n with
  | nil =>
    cases n with
    | zero => rfl
    | succ n => simp at h
  | cons x l ih =>
    cases n with
    | zero => rfl
    | succ n =>
      simp only [insertAt, List.take_succ_cons, List.drop_succ_cons, List.cons_append]
      rw [ih n (by simpa using h)]

theorem minIndex_le_length (s : Nat) (inbox : List (Envelope T)) :
    minIndex s inbox ≤ inbox.length := by
  induction inbox with
  | nil => simp [minIndex]
  | cons e rest ih =>
    simp only [minIndex, List.length_cons]
    by_cases h : minIndex s rest = 0
    · by_cases h2 : e.sender = s <;> simp [h, h2]
    · simp only [if_neg h]
      omega

theorem sender_ne_of_mem_drop_minIndex (s : Nat) (inbox : List (Envelope T)) :
    ∀ e ∈ inbox.drop (minIndex s inbox), e.sender ≠ s := by
  induction inbox with
  | nil => intro e he; simp at he
  | cons x rest ih =>
    intro e he
    by_cases h : minIndex s rest = 0
    · by_cases h2 : x.sender = s
      · rw [show minIndex s (x :: rest) = 1 by simp [minIndex, h, h2]] at he
        rw [show List.drop 1 (x :: rest) = rest from rfl] at he
        exact ih e (by rw [h]; simpa using he)
      · rw [show minIndex s (x :: rest) = 0 by simp [minIndex, h, h2]] at he
        rw [List.drop_zero] at he
        rcases List.mem_cons.mp he with rfl | hm
        · exact h2
        · exact ih e (by rw [h]; simpa using hm)
    · rw [show minIndex s (x :: rest) = minIndex s rest + 1 by simp [minIndex, h]] at he
      rw [show List.drop (minIndex s rest + 1) (x :: rest)
        = List.drop (minIndex s rest) rest from rfl] at he
      exact ih e he

theorem senderFilter_append (s : Nat) (l1 l2 : List (Envelope T)) :
    senderFilter s (l1 ++ l2) = senderFilter s l1 ++ senderFilter s l2 := by
  simp [senderFilter, List.filter_append]

theorem senderFilter_eq_nil_of (s : Nat) (l : List (Envelope T))
    (h : ∀ e ∈ l, e.sender ≠ s) : senderFilter s l = [] := by
  induction l with
  | nil => rfl
  | cons x rest ih =>
    have hx : (x.sender == s) = false :=
      beq_eq_false_iff_ne.mpr (h x (List.mem_cons_self x rest))
    simp only [senderFilter, List.filter_cons, hx]
    exact ih (fun e he => h e (List.mem_cons_of_mem x he))

theorem senderFilter_drop_minIndex (s : Nat) (inbox : List (Envelope T)) :
    senderFilter s (inbox.drop (minIndex s inbox)) = [] :=
  senderFilter_eq_nil_of s _ (sender_ne_of_mem_drop_minIndex s inbox)

theorem senderFilter_take_minIndex (s : Nat) (inbox : List (Envelope T)) :
    senderFilter s (inbox.take (minIndex s inbox)) = senderFilter s inbox := by
  conv_rhs => rw [← List.take_append_drop (minIndex s inbox) inbox]
  rw [senderFilter_append, senderFilter_drop_minIndex, List.append_nil]

theorem append_cons_replicate {α : Type _} (a : α) (X Y : List α) (t : Nat)
    (h : X ++ Y = List.replicate t a) : X ++ a :: Y = List.replicate (t + 1) a := by
  rw [List.eq_replicate_iff]
  have hmem : ∀ c ∈ X ++ Y, c = a := by
    rw [h]
    intro c hc
    exact (List.mem_replicate.mp hc).2
  constructor
  · have hlen := congrArg List.length h
    simp only [List.length_append, List.length_replicate] at hlen
    simp only [List.length_append, List.length_cons]
    omega
  · intro b hb
    rcases List.mem_append.mp hb with hX | hY
    · exact hmem b (List.mem_append.mpr (Or.inl hX))
    · rcases List.mem_cons.mp hY with rfl | hY2
      · rfl
      · exact hmem b (List.mem_append.mpr (Or.inr hY2))

/-- Loop invariant of the `for _ in 0..k` insertion loop: the part of
the inbox before `minIdx` is untouched, the inserted copies are exactly
the sender-`s` envelopes at or after `minIdx`, the length grows by `k`,
every envelope is an old one or a copy, and envelopes rejected by any
predicate rejecting the copy are untouched. -/
theorem insertCopies_spec (s : Nat) (m : T) (minIdx : Nat) :
    ∀ (k : Nat) (inbox : List (Envelope T)) (rng : Rng) (t : Nat),
      minIdx ≤ inbox.length →
      senderFilter s (inbox.drop minIdx) = List.replicate t ⟨m, s⟩ →
      (insertCopies s m minIdx k inbox rng).1.take minIdx = inbox.take minIdx ∧
        senderFilter s ((insertCopies s m minIdx k inbox rng).1.drop minIdx)
          = List.replicate (t + k) ⟨m, s⟩ ∧
        (insertCopies s m minIdx k inbox rng).1.length = inbox.length + k ∧
        (∀ e ∈ (insertCopies s m minIdx k inbox rng).1, e ∈ inbox ∨ e = ⟨m, s⟩) ∧
        (∀ p : Envelope T → Bool, p ⟨m, s⟩ = false →
          (insertCopies s m minIdx k inbox rng).1.filter p = inbox.filter p) := by
  intro k
  induction k with
  | zero =>
    intro inbox rng t hle hfil
    exact ⟨rfl, by simpa using hfil, by simp [insertCopies], fun e he => Or.inl he,
      fun p _ => rfl⟩
  | succ k ih =>
    intro inbox rng t hle hfil
    have hpos_lo : minIdx ≤ (genRange rng minIdx (inbox.length + 1)).1 :=
      genRange_le_fst rng minIdx (inbox.length + 1)
    have hpos_hi : (genRange rng minIdx (inbox.length + 1)).1 ≤ inbox.length := by
      have := genRange_fst_lt rng minIdx (inbox.length + 1) (by omega)
      omega
    set pos := (genRange rng minIdx (inbox.length + 1)).1 with hpos
    have htpos : (inbox.take pos).length = pos := by
      simp [List.length_take]
      omega
    have hins : insertAt pos ⟨m, s⟩ inbox = inbox.take pos ++ ⟨m, s⟩ :: inbox.drop pos :=
      insertAt_eq pos ⟨m, s⟩ inbox hpos_hi
    have hlen1 : (insertAt pos ⟨m, s⟩ inbox).length = inbox.length + 1 := by
      rw [hins]
      simp [List.length_append, List.length_take, List.length_drop]
      omega
    have hsplit : inbox.drop minIdx = (inbox.take pos).drop minIdx ++ inbox.drop pos := by
      conv_lhs => rw [← List.take_append_drop pos inbox]
      rw [List.drop_append_of_le_length (by omega)]
    have hXY : senderFilter s ((inbox.take pos).drop minIdx)
        ++ senderFilter s (inbox.drop pos) = List.replicate t ⟨m, s⟩ := by
      rw [← senderFilter_append, ← hsplit]
      exact hfil
    have hdrop1 : (insertAt pos ⟨m, s⟩ inbox).drop minIdx
        = (inbox.take pos).drop minIdx ++ ⟨m, s⟩ :: inbox.drop pos := by
      rw [hins, List.drop_append_of_le_length (by omega)]
    have hfil1 : senderFilter s ((insertAt pos ⟨m, s⟩ inbox).drop minIdx)
        = List.replicate (t + 1) ⟨m, s⟩ := by
      rw [hdrop1, senderFilter_append]
      have : senderFilter s (⟨m, s⟩ :: inbox.drop pos)
          = ⟨m, s⟩ :: senderFilter s (inbox.drop pos) := by
        simp [senderFilter, List.filter_cons]
      rw [this]
      exact append_cons_replicate _ _ _ t hXY
    have htake1 : (insertAt pos ⟨m, s⟩ inbox).take minIdx = inbox.take minIdx := by
      rw [hins, List.take_append_of_le_length (by omega), List.take_take,
        inf_eq_left.mpr hpos_lo]
    have hmain := ih (insertAt pos ⟨m, s⟩ inbox)
      (genRange rng minIdx (inbox.length + 1)).2 (t + 1) (by omega) hfil1
    have hunfold : insertCopies s m minIdx (k + 1) inbox rng
        = insertCopies s m minIdx k (insertAt pos ⟨m, s⟩ inbox)
            (genRange rng minIdx (inbox.length + 1)).2 := rfl
    rw [hunfold]
    refine ⟨hmain.1.trans htake1, ?_, ?_, ?_, ?_⟩
    · rw [hmain.2.1]
      rw [show t + (k + 1) = t + 1 + k by omega]
    · rw [hmain.2.2.1, hlen1]
      omega
    · intro e he
      rcases hmain.2.2.2.1 e he with h1 | h2
      · rw [hins] at h1
        rcases List.mem_append.mp h1 with hta | htb
        · exact Or.inl (List.take_subset pos inbox hta)
        · rcases List.mem_cons.mp htb with rfl | hd
          · exact Or.inr rfl
          · exact Or.inl (List.drop_subset pos inbox hd)
      · exact Or.inr h2
    · intro p hp
      rw [hmain.2.2.2.2 p hp, hins, List.filter_append, List.filter_cons, hp]
      simp only [Bool.false_eq_true, if_false]
      rw [← List.filter_append, List.take_append_drop]

/-- Delivering one message to one inbox appends one block of `1..=3`
copies to the inbox's sender-`s` subsequence and touches nothing else. -/
theorem deliverMessage_spec (s : Nat) (m : T) (inbox : List (Envelope T)) (rng : Rng) :
    ∃ k, 1 ≤ k ∧ k ≤ 3 ∧
      senderFilter s (deliverMessage s m inbox rng).1
        = senderFilter s inbox ++ List.replicate k ⟨m, s⟩ ∧
      (∀ e ∈ (deliverMessage s m inbox rng).1, e ∈ inbox ∨ e = ⟨m, s⟩) ∧
      (∀ p : Envelope T → Bool, p ⟨m, s⟩ = false →
        (deliverMessage s m inbox rng).1.filter p = inbox.filter p) := by
  have hk_lo : 1 ≤ (genRange rng 1 4).1 := genRange_le_fst rng 1 4
  have hk_hi : (genRange rng 1 4).1 ≤ 3 := by
    have := genRange_fst_lt rng 1 4 (by omega)
    omega
  have hmin := minIndex_le_length s inbox
  have h0 : senderFilter s (inbox.drop (minIndex s inbox)) = List.replicate 0 ⟨m, s⟩ := by
    simpa using senderFilter_drop_minIndex s inbox
  have hspec := insertCopies_spec s m (minIndex s inbox) (genRange rng 1 4).1 inbox
    (genRange rng 1 4).2 0 hmin h0
  refine ⟨(genRange rng 1 4).1, hk_lo, hk_hi, ?_, hspec.2.2.2.1, hspec.2.2.2.2⟩
  have hres : (deliverMessage s m inbox rng).1
      = (insertCopies s m (minIndex s inbox) (genRange rng 1 4).1 inbox
          (genRange rng 1 4).2).1 := rfl
  rw [hres,
    ← List.take_append_drop (minIndex s inbox)
      (insertCopies s m (minIndex s inbox) (genRange rng 1 4).1 inbox (genRange rng 1 4).2).1,
    senderFilter_append, hspec.1, hspec.2.1, senderFilter_take_minIndex]
  simp

/-- Delivering a message list to one inbox appends a `Blocks` sequence
to the sender-`s` subsequence, only adds sender-`s` envelopes, and
preserves the subsequences of all other senders. -/
theorem deliverAll_spec (s : Nat) :
    ∀ (ms : List T) (inbox : List (Envelope T)) (rng : Rng),
      ∃ Q, Blocks s ms Q ∧
        senderFilter s (deliverAll s ms inbox rng).1 = senderFilter s inbox ++ Q ∧
        (∀ e ∈ (deliverAll s ms inbox rng).1, e ∈ inbox ∨ e.sender = s) ∧
        (∀ s', s' ≠ s → senderFilter s' (deliverAll s ms inbox rng).1 = senderFilter s' inbox) := by
  intro ms
  induction ms with
  | nil =>
    intro inbox rng
    exact ⟨[], Blocks.nil, by simp [deliverAll], fun e he => Or.inl he, fun s' _ => rfl⟩
  | cons m ms ih =>
    intro inbox rng
    obtain ⟨k, hk1, hk3, hfilter, hmem, hpres⟩ := deliverMessage_spec s m inbox rng
    obtain ⟨Q, hQ, hfilter2, hmem2, hpres2⟩ :=
      ih (deliverMessage s m inbox rng).1 (deliverMessage s m inbox rng).2
    have hres : (deliverAll s (m :: ms) inbox rng).1
        = (deliverAll s ms (deliverMessage s m inbox rng).1
            (deliverMessage s m inbox rng).2).1 := rfl
    refine ⟨List.replicate k ⟨m, s⟩ ++ Q, Blocks.cons m k hk1 hk3 hQ, ?_, ?_, ?_⟩
    · rw [hres, hfilter2, hfilter, List.append_assoc]
    · intro e he
      rw [hres] at he
      rcases hmem2 e he with h1 | h2
      · rcases hmem e h1 with h3 | h4
        · exact Or.inl h3
        · exact Or.inr (by rw [h4])
      · exact Or.inr h2
    · intro s' hs'
      have hb : ((⟨m, s⟩ : Envelope T).sender == s') = false :=
        beq_eq_false_iff_ne.mpr (fun h => hs' h.symm)
      have hp := hpres (fun e => e.sender == s') hb
      rw [hres, hpres2 s' hs']
      exact hp

/-- `broadcastInboxes` keyed view: every entry of the result comes from
an entry of the input with the same key; the sender's entry is
unchanged, every other entry received one `Blocks` batch. -/
theorem broadcastInboxes_lookup (s : Nat) (ms : List T) :
    ∀ (l : List (Nat × List (Envelope T))) (rng : Rng) (r : Nat) (inbox' : List (Envelope T)),
      lookupInbox r (broadcastInboxes s ms l rng).1 = some inbox' →
      ∃ inbox, lookupInbox r l = some inbox ∧
        ((r = s ∧ inbox' = inbox) ∨
          (r ≠ s ∧ ∃ Q, Blocks s ms Q ∧
            senderFilter s inbox' = senderFilter s inbox ++ Q ∧
            (∀ e ∈ inbox', e ∈ inbox ∨ e.sender = s) ∧
            (∀ s', s' ≠ s → senderFilter s' inbox' = senderFilter s' inbox))) := by
  intro l
  induction l with
  | nil =>
    intro rng r inbox' h
    simp [broadcastInboxes, lookupInbox] at h
  | cons kv rest ih =>
    intro rng r inbox' h
    obtain ⟨k, v⟩ := kv
    by_cases hks : k ≠ s
    · rw [show (broadcastInboxes s ms ((k, v) :: rest) rng).1
          = (k, (deliverAll s ms v rng).1) ::
              (broadcastInboxes s ms rest (deliverAll s ms v rng).2).1 by
        simp [broadcastInboxes, hks]] at h
      by_cases hkr : k = r
      · subst hkr
        rw [lookupInbox, if_pos rfl] at h
        obtain ⟨Q, hQ, h1, h2, h3⟩ := deliverAll_spec s ms v rng
        injection h with h
        subst h
        exact ⟨v, by simp [lookupInbox], Or.inr ⟨hks, Q, hQ, h1, h2, h3⟩⟩
      · rw [lookupInbox, if_neg hkr] at h
        obtain ⟨inbox, hl, hrest⟩ := ih _ r inbox' h
        exact ⟨inbox, by simp [lookupInbox, hkr, hl], hrest⟩
    · rw [not_not] at hks
      rw [show (broadcastInboxes s ms ((k, v) :: rest) rng).1
          = (k, v) :: (broadcastInboxes s ms rest rng).1 by
        simp [broadcastInboxes, hks]] at h
      by_cases hkr : k = r
      · subst hkr
        rw [lookupInbox, if_pos rfl] at h
        injection h with h
        subst h
        exact ⟨v, by simp [lookupInbox], Or.inl ⟨hks, rfl⟩⟩
      · rw [lookupInbox, if_neg hkr] at h
        obtain ⟨inbox, hl, hrest⟩ := ih _ r inbox' h
        exact ⟨inbox, by simp [lookupInbox, hkr, hl], hrest⟩

/-! ## Order-compatibility (`Dup`) machinery -/

theorem Dup_nil_right : ∀ h : List T, Dup h []
  | [] => Dup.nil
  | m :: h => Dup.skip m (Dup_nil_right h)

theorem Dup_mem {h p : List T} (hd : Dup h p) : ∀ x ∈ p, x ∈ h := by
  induction hd with
  | nil => intro x hx; exact absurd hx (List.not_mem_nil x)
  | skip m _ ih =>
    intro x hx
    exact List.mem_cons_of_mem m (ih x hx)
  | copy m _ ih =>
    intro x hx
    rcases List.mem_cons.mp hx with rfl | hx2
    · exact List.mem_cons_self x _
    · exact ih x hx2

theorem Dup_append {h1 p1 h2 p2 : List T} (d1 : Dup h1 p1) (d2 : Dup h2 p2) :
    Dup (h1 ++ h2) (p1 ++ p2) := by
  induction d1 with
  | nil => simpa using d2
  | skip m _ ih =>
    simpa only [List.cons_append] using Dup.skip m ih
  | copy m _ ih =>
    simpa only [List.cons_append] using Dup.copy m ih

theorem Dup_hist_extend {h p : List T} (hd : Dup h p) (h2 : List T) : Dup (h ++ h2) p := by
  have := Dup_append hd (Dup_nil_right h2)
  simpa using this

theorem Dup_cons_elim_aux {h q : List T} (hd : Dup h q) :
    ∀ a p, q = a :: p → Dup h p := by
  induction hd with
  | nil => intro a p hp; exact absurd hp (by simp)
  | skip m _ ih =>
    intro a p hp
    exact Dup.skip m (ih a p hp)
  | copy m hsub _ =>
    intro a p hp
    injection hp with h1 h2
    exact h2 ▸ hsub

theorem Dup_append_elim {h : List T} (x : List T) {p : List T} (hd : Dup h (x ++ p)) :
    Dup h p := by
  induction x with
  | nil => simpa using hd
  | cons a x ih =>
    exact ih (Dup_cons_elim_aux hd a (x ++ p) rfl)

theorem Dup_single_replicate (m : T) (k : Nat) : Dup [m] (List.replicate k m) := by
  induction k with
  | zero => exact Dup_nil_right [m]
  | succ k ih => exact Dup.copy m ih

theorem Blocks_dup {s : Nat} {ms : List T} {q : List (Envelope T)} (hb : Blocks s ms q) :
    Dup ms (q.map Envelope.message) := by
  induction hb with
  | nil => exact Dup.nil
  | cons m k _ _ _ ih =>
    rw [List.map_append, List.map_replicate]
    exact Dup_append (Dup_single_replicate m k) ih

theorem Dup_split {h p : List T} (hd : Dup h p) :
    ∀ h1 h2, h = h1 ++ h2 → ∃ p1 p2, p = p1 ++ p2 ∧ Dup h1 p1 ∧ Dup h2 p2 := by
  induction hd with
  | nil =>
    intro h1 h2 heq
    obtain ⟨rfl, rfl⟩ := List.append_eq_nil.mp heq.symm
    exact ⟨[], [], rfl, Dup.nil, Dup.nil⟩
  | skip m hsub ih =>
    intro h1 h2 heq
    cases h1 with
    | nil =>
      exact ⟨[], _, rfl, Dup.nil, by rw [List.nil_append] at heq; exact heq ▸ Dup.skip m hsub⟩
    | cons a h1' =>
      rw [List.cons_append] at heq
      injection heq with e1 e2
      obtain ⟨p1, p2, rfl, d1, d2⟩ := ih h1' h2 e2
      exact ⟨p1, p2, rfl, e1 ▸ Dup.skip a d1, d2⟩
  | copy m hsub ih =>
    intro h1 h2 heq
    cases h1 with
    | nil =>
      refine ⟨[], _, rfl, Dup.nil, ?_⟩
      rw [List.nil_append] at heq
      exact heq ▸ Dup.copy m hsub
    | cons a h1' =>
      rw [List.cons_append] at heq
      injection heq with e1 e2
      obtain ⟨p1, p2, hp, d1, d2⟩ := ih (a :: h1') h2 (by rw [e1, e2, List.cons_append])
      subst e1
      exact ⟨m :: p1, p2, by rw [hp, List.cons_append], Dup.copy m d1, d2⟩

theorem mem_take_of_getElem? {α : Type _} (l : List α) (i n : Nat) (x : α)
    (h : l[i]? = some x) (hin : i < n) : x ∈ l.take n := by
  have h2 : (l.take n)[i]? = some x := by
    rw [List.getElem?_take, if_pos hin]
    exact h
  exact List.getElem?_mem h2

theorem mem_drop_of_getElem? {α : Type _} (l : List α) (i n : Nat) (x : α)
    (h : l[i]? = some x) (hin : n ≤ i) : x ∈ l.drop n := by
  have h2 : (l.drop n)[i - n]? = some x := by
    rw [List.getElem?_drop, show n + (i - n) = i by omega]
    exact h
  exact List.getElem?_mem h2

theorem projS_split (s : Nat) (n : Nat) (inbox : List (Envelope T)) :
    projS s inbox = projS s (inbox.take n) ++ projS s (inbox.drop n) := by
  conv_lhs => rw [← List.take_append_drop n inbox]
  rw [projS, senderFilter_append, List.map_append]
  rfl

/-! ## Run-level invariants -/

theorem runNet_receive_inversion (net : Network T) (r' : Nat) (cs : List (Call T))
    (netF : Network T) (outs : List (List T))
    (h : runNet net (Call.receive r' :: cs) = some (netF, outs)) :
    ∃ out net' outs2, net.receive r' = some (out, net') ∧
      runNet net' cs = some (netF, outs2) ∧ outs = out :: outs2 := by
  unfold runNet at h
  split at h
  · exact absurd h (by simp)
  · next out net' heq =>
    split at h
    · exact absurd h (by simp)
    · next netF2 outs2 heq2 =>
      simp only [Option.some.injEq, Prod.mk.injEq] at h
      obtain ⟨h1, h2⟩ := h
      exact ⟨out, net', outs2, heq, by rw [← h1]; exact heq2, h2.symm⟩

theorem receive_inversion (net : Network T) (r : Nat) (out : List T) (net' : Network T)
    (h : net.receive r = some (out, net')) :
    ∃ inbox, lookupInbox r net.inboxes = some inbox ∧
      out = (inbox.take (genRange net.rng 0 (inbox.length + 1)).1).map Envelope.message ∧
      net'.inboxes
        = updateInbox r (inbox.drop (genRange net.rng 0 (inbox.length + 1)).1) net.inboxes ∧
      net'.all_messages = net.all_messages ∧
      net'.rng = (genRange net.rng 0 (inbox.length + 1)).2 := by
  unfold Network.receive at h
  cases hl : lookupInbox r net.inboxes with
  | none =>
    rw [hl] at h
    simp at h
  | some inbox =>
    rw [hl] at h
    simp only [Option.some.injEq, Prod.mk.injEq] at h
    obtain ⟨h1, h2⟩ := h
    exact ⟨inbox, rfl, h1.symm, by rw [← h2], by rw [← h2], by rw [← h2]⟩

/-- Core invariant: across any run, the sender-`s` subsequence of every
inbox is an order-compatible duplication of `s`'s broadcast history
(relative to any history family `H` compatible with the initial state). -/
theorem runNet_dup {T : Type} :
    ∀ (calls : List (Call T)) (H : Nat → List T) (net : Network T)
      (netF : Network T) (outs : List (List T)),
      runNet net calls = some (netF, outs) →
      (∀ s r inbox, lookupInbox r net.inboxes = some inbox → Dup (H s) (projS s inbox)) →
      ∀ s r inbox, lookupInbox r netF.inboxes = some inbox →
        Dup (H s ++ histOf s calls) (projS s inbox) := by
  intro calls
  induction calls with
  | nil =>
    intro H net netF outs hrun hpre s r inbox hin
    simp only [runNet, Option.some.injEq, Prod.mk.injEq] at hrun
    obtain ⟨rfl, rfl⟩ := hrun
    simpa [histOf] using hpre s r inbox hin
  | cons c cs ih =>
    intro H net netF outs hrun hpre s r inbox hin
    cases c with
    | addPeer id =>
      have hrun' : runNet (net.add_peer id) cs = some (netF, outs) := hrun
      have hpre' : ∀ s2 r2 inbox2, lookupInbox r2 (net.add_peer id).inboxes = some inbox2 →
          Dup (H s2) (projS s2 inbox2) := by
        intro s2 r2 inbox2 hin2
        have hb : (net.add_peer id).inboxes = insertPeer id net.inboxes := rfl
        rw [hb] at hin2
        by_cases hr : r2 = id
        · subst hr
          rw [lookup_insertPeer_self] at hin2
          injection hin2 with hh
          rw [← hh]
          exact Dup_nil_right _
        · rw [lookup_insertPeer_other id r2 hr] at hin2
          exact hpre s2 r2 inbox2 hin2
      have hfin := ih H (net.add_peer id) netF outs hrun' hpre' s r inbox hin
      simpa [histOf] using hfin
    | broadcast s' ms' =>
      have hrun' : runNet (net.broadcast s' ms') cs = some (netF, outs) := hrun
      have hpre' : ∀ s2 r2 inbox2,
          lookupInbox r2 (net.broadcast s' ms').inboxes = some inbox2 →
          Dup (H s2 ++ (if s' = s2 then ms' else [])) (projS s2 inbox2) := by
        intro s2 r2 inbox2 hin2
        have hb : (net.broadcast s' ms').inboxes
            = (broadcastInboxes s' ms' net.inboxes net.rng).1 := rfl
        rw [hb] at hin2
        obtain ⟨inbox0, hl0, hd⟩ :=
          broadcastInboxes_lookup s' ms' net.inboxes net.rng r2 inbox2 hin2
        rcases hd with ⟨hrs, heq⟩ | ⟨hrs, Q, hQ, hsf, hmem, hpres⟩
        · rw [heq]
          by_cases hss : s' = s2
          · rw [if_pos hss]
            exact Dup_hist_extend (hpre s2 r2 inbox0 hl0) _
          · rw [if_neg hss, List.append_nil]
            exact hpre s2 r2 inbox0 hl0
        · by_cases hss : s' = s2
          · subst hss
            rw [if_pos rfl]
            have hp2 : projS s' inbox2 = projS s' inbox0 ++ Q.map Envelope.message := by
              rw [projS, hsf, List.map_append]
              rfl
            rw [hp2]
            exact Dup_append (hpre s' r2 inbox0 hl0) (Blocks_dup hQ)
          · rw [if_neg hss, List.append_nil]
            have hp2 : projS s2 inbox2 = projS s2 inbox0 := by
              rw [projS, hpres s2 (fun h => hss h.symm)]
              rfl
            rw [hp2]
            exact hpre s2 r2 inbox0 hl0
      have hfin := ih (fun s2 => H s2 ++ (if s' = s2 then ms' else []))
        (net.broadcast s' ms') netF outs hrun' hpre' s r inbox hin
      show Dup (H s ++ ((if s' = s then ms' else []) ++ histOf s cs)) (projS s inbox)
      rw [← List.append_assoc]
      exact hfin
    | receive r' =>
      obtain ⟨out, net', outs2, hrec, hrn, rfl⟩ :=
        runNet_receive_inversion net r' cs netF outs hrun
      obtain ⟨inbox0, hl0, _, hnet', _, _⟩ := receive_inversion net r' out net' hrec
      have hpre' : ∀ s2 r2 inbox2, lookupInbox r2 net'.inboxes = some inbox2 →
          Dup (H s2) (projS s2 inbox2) := by
        intro s2 r2 inbox2 hin2
        rw [hnet'] at hin2
        by_cases hr : r2 = r'
        · subst hr
          rw [lookup_updateInbox_self r2 _ inbox0 net.inboxes hl0] at hin2
          injection hin2 with hh
          rw [← hh]
          have hsplit := projS_split s2 (genRange net.rng 0 (inbox0.length + 1)).1 inbox0
          have hd := hpre s2 r2 inbox0 hl0
          rw [hsplit] at hd
          exact Dup_append_elim _ hd
        · rw [lookup_updateInbox_other r' r2 hr _ net.inboxes] at hin2
          exact hpre s2 r2 inbox2 hin2
      have hfin := ih H net' netF outs2 hrn hpre' s r inbox hin
      simpa [histOf] using hfin

/-! ## C1: per-sender FIFO -/

/-- C1 counterexample: the claim quantifies over every pair of messages
broadcast in order, including values that are re-broadcast later.  With
`broadcast(0, [0, 1, 0])`, sender 0 broadcasts message 0 before
message 1, yet receiver 1's inbox holds a copy of message 0 (from the
third list entry) at position 2, after the copy of message 1 at
position 1 — so not every copy of `m₁ = 0` precedes every copy of
`m₂ = 1`. -/
theorem fifo_counterexample :
    histOf 0 [Call.addPeer 0, Call.addPeer 1, Call.broadcast 0 [(0 : Nat), 1, 0]]
        = [0, 1, 0] ∧
      runNet (Network.new ([] : Rng))
          [Call.addPeer 0, Call.addPeer 1, Call.broadcast 0 [(0 : Nat), 1, 0]]
        = some (⟨[(0, []), (1, [⟨0, 0⟩, ⟨1, 0⟩, ⟨0, 0⟩])], [0, 1, 0], []⟩, []) ∧
      [(⟨0, 0⟩ : Envelope Nat), ⟨1, 0⟩, ⟨0, 0⟩][1]? = some ⟨1, 0⟩ ∧
      [(⟨0, 0⟩ : Envelope Nat), ⟨1, 0⟩, ⟨0, 0⟩][2]? = some ⟨0, 0⟩ ∧
      ¬ (2 : Nat) < 1 := by
  refine ⟨by decide, by decide, by decide, by decide, by omega⟩

/-- C1 amended: per-sender FIFO holds for every pair of distinct message
values whose broadcast occurrences by `s` are entirely ordered — the
history of `s` splits as `h₁ ++ h₂` with every occurrence of `m₁` in
`h₁` and every occurrence of `m₂` in `h₂` (the counterexample forces
excluding values re-broadcast after the later message).  Then in any
receiver's inbox after any run, every copy of `m₁` sent by `s` sits
strictly before every copy of `m₂` sent by `s`. -/
theorem fifo_per_sender_amended {T : Type} (seed : Rng) (calls : List (Call T))
    (netF : Network T) (outs : List (List T))
    (hrun : runNet (Network.new seed) calls = some (netF, outs))
    (s r : Nat) (_hr : r ≠ s)
    (m1 m2 : T) (h1 h2 : List T)
    (hh : histOf s calls = h1 ++ h2)
    (_hm1 : m1 ∈ h1) (hm2 : m2 ∈ h2) (hn1 : m1 ∉ h2) (hn2 : m2 ∉ h1)
    (inbox : List (Envelope T)) (hin : lookupInbox r netF.inboxes = some inbox)
    (i j : Nat) (hi : inbox[i]? = some ⟨m1, s⟩) (hj : inbox[j]? = some ⟨m2, s⟩) :
    i < j := by
  have hdup0 : Dup (histOf s calls) (projS s inbox) := by
    have hd := runNet_dup calls (fun _ => []) (Network.new seed) netF outs hrun
      (by
        intro s2 r2 inbox2 hin2
        simp [Network.new, lookupInbox] at hin2) s r inbox hin
    simpa using hd
  rw [hh] at hdup0
  obtain ⟨p1, p2, hp, d1, d2⟩ := Dup_split hdup0 h1 h2 rfl
  have hm2p1 : m2 ∉ p1 := fun hx => hn2 (Dup_mem d1 m2 hx)
  have hm1p2 : m1 ∉ p2 := fun hx => hn1 (Dup_mem d2 m1 hx)
  have hm12 : m1 ≠ m2 := fun he => hn1 (he ▸ hm2)
  by_contra hij
  push_neg at hij
  have hcases : j < i ∨ j = i := by omega
  rcases hcases with hji | rfl
  · have hm2take : (⟨m2, s⟩ : Envelope T) ∈ inbox.take (j + 1) :=
      mem_take_of_getElem? inbox j (j + 1) _ hj (by omega)
    have hm1drop : (⟨m1, s⟩ : Envelope T) ∈ inbox.drop (j + 1) :=
      mem_drop_of_getElem? inbox i (j + 1) _ hi (by omega)
    have hm2A : m2 ∈ projS s (inbox.take (j + 1)) := by
      rw [projS]
      refine List.mem_map.mpr ⟨⟨m2, s⟩, ?_, rfl⟩
      exact List.mem_filter.mpr ⟨hm2take, by simp⟩
    have hm1B : m1 ∈ projS s (inbox.drop (j + 1)) := by
      rw [projS]
      refine List.mem_map.mpr ⟨⟨m1, s⟩, ?_, rfl⟩
      exact List.mem_filter.mpr ⟨hm1drop, by simp⟩
    have hEq : projS s (inbox.take (j + 1)) ++ projS s (inbox.drop (j + 1)) = p1 ++ p2 :=
      (projS_split s (j + 1) inbox).symm.trans hp
    rcases List.append_eq_append_iff.mp hEq with ⟨a', hc, _⟩ | ⟨c', _, hd2⟩
    · exact hm2p1 (hc ▸ List.mem_append.mpr (Or.inl hm2A))
    · exact hm1p2 (hd2 ▸ List.mem_append.mpr (Or.inr hm1B))
  · rw [hi] at hj
    injection hj with hj2
    injection hj2 with hj3 _
    exact hm12 hj3

/-- Witness for `fifo_per_sender_amended` on a concrete run:
`broadcast(0, [10, 20])` with two peers; the single copy of 10 in
replica 1's inbox sits at position 0, before the copy of 20 at
position 1. -/
theorem fifo_per_sender_amended_witness :
    runNet (Network.new ([] : Rng))
        [Call.addPeer 0, Call.addPeer 1, Call.broadcast 0 [(10 : Nat), 20]]
      = some (⟨[(0, []), (1, [⟨10, 0⟩, ⟨20, 0⟩])], [10, 20], []⟩, []) ∧ (0 : Nat) < 1 :=
  ⟨by decide,
    fifo_per_sender_amended [] [Call.addPeer 0, Call.addPeer 1, Call.broadcast 0 [(10 : Nat), 20]]
      ⟨[(0, []), (1, [⟨10, 0⟩, ⟨20, 0⟩])], [10, 20], []⟩ [] (by decide)
      0 1 (by decide) 10 20 [10] [20] (by decide) (by decide) (by decide) (by decide) (by decide)
      [⟨10, 0⟩, ⟨20, 0⟩] (by decide) 0 1 (by decide) (by decide)⟩

/-! ## C2: determinism -/

/-- C2: with equal PRNG seeds and identical call sequences, all
observable outputs — the vector returned by every `receive`, every
inbox, and `all_messages` — are equal (`runNet` returns the final
network and all `receive` outputs). -/
theorem network_determinism {T : Type} (seed1 seed2 : Rng) (calls : List (Call T))
    (h : seed1 = seed2) :
    runNet (Network.new seed1) calls = runNet (Network.new seed2) calls := by
  rw [h]

/-- Witness for `network_determinism` at a concrete seed and call list. -/
theorem network_determinism_witness :
    ([1, 2] : Rng) = [1, 2] ∧
      runNet (Network.new ([1, 2] : Rng))
          [Call.addPeer 0, Call.addPeer 1, Call.broadcast 0 [(5 : Nat)], Call.receive 1]
        = runNet (Network.new ([1, 2] : Rng))
          [Call.addPeer 0, Call.addPeer 1, Call.broadcast 0 [(5 : Nat)], Call.receive 1] :=
  ⟨rfl, network_determinism [1, 2] [1, 2]
    [Call.addPeer 0, Call.addPeer 1, Call.broadcast 0 [(5 : Nat)], Call.receive 1] rfl⟩

/-! ## C3: no self-delivery -/

theorem runNet_selffree {T : Type} :
    ∀ (calls : List (Call T)) (net netF : Network T) (outs : List (List T)),
      runNet net calls = some (netF, outs) →
      (∀ r inbox, lookupInbox r net.inboxes = some inbox → ∀ e ∈ inbox, e.sender ≠ r) →
      ∀ r inbox, lookupInbox r netF.inboxes = some inbox → ∀ e ∈ inbox, e.sender ≠ r := by
  intro calls
  induction calls with
  | nil =>
    intro net netF outs hrun hpre r inbox hin
    simp only [runNet, Option.some.injEq, Prod.mk.injEq] at hrun
    obtain ⟨rfl, rfl⟩ := hrun
    exact hpre r inbox hin
  | cons c cs ih =>
    intro net netF outs hrun hpre r inbox hin
    cases c with
    | addPeer id =>
      refine ih (net.add_peer id) netF outs hrun ?_ r inbox hin
      intro r2 inbox2 hin2
      have hb : (net.add_peer id).inboxes = insertPeer id net.inboxes := rfl
      rw [hb] at hin2
      by_cases hr2 : r2 = id
      · subst hr2
        rw [lookup_insertPeer_self] at hin2
        injection hin2 with hh
        rw [← hh]
        intro e he
        simp at he
      · rw [lookup_insertPeer_other id r2 hr2] at hin2
        exact hpre r2 inbox2 hin2
    | broadcast s' ms' =>
      refine ih (net.broadcast s' ms') netF outs hrun ?_ r inbox hin
      intro r2 inbox2 hin2
      have hb : (net.broadcast s' ms').inboxes
          = (broadcastInboxes s' ms' net.inboxes net.rng).1 := rfl
      rw [hb] at hin2
      obtain ⟨inbox0, hl0, hd⟩ :=
        broadcastInboxes_lookup s' ms' net.inboxes net.rng r2 inbox2 hin2
      rcases hd with ⟨_, heq⟩ | ⟨hrs, _, _, _, hmem, _⟩
      · rw [heq]
        exact hpre r2 inbox0 hl0
      · intro e he
        rcases hmem e he with hold | hnew
        · exact hpre r2 inbox0 hl0 e hold
        · rw [hnew]
          exact fun hc => hrs hc.symm
    | receive r' =>
      obtain ⟨out, net', outs2, hrec, hrn, rfl⟩ :=
        runNet_receive_inversion net r' cs netF outs hrun
      obtain ⟨inbox0, hl0, _, hnet', _, _⟩ := receive_inversion net r' out net' hrec
      refine ih net' netF outs2 hrn ?_ r inbox hin
      intro r2 inbox2 hin2
      rw [hnet'] at hin2
      by_cases hr2 : r2 = r'
      · subst hr2
        rw [lookup_updateInbox_self r2 _ inbox0 net.inboxes hl0] at hin2
        injection hin2 with hh
        rw [← hh]
        intro e he
        exact hpre r2 inbox0 hl0 e (List.drop_subset _ inbox0 he)
      · rw [lookup_updateInbox_other r' r2 hr2 _ net.inboxes] at hin2
        exact hpre r2 inbox2 hin2

/-- C3: for every seed, every peer set and every call sequence executed
from a fresh network, no replica's inbox ever contains an envelope whose
sender is that replica itself. -/
theorem no_self_delivery {T : Type} (seed : Rng) (calls : List (Call T))
    (netF : Network T) (outs : List (List T))
    (hrun : runNet (Network.new seed) calls = some (netF, outs))
    (r : Nat) (inbox : List (Envelope T)) (hin : lookupInbox r netF.inboxes = some inbox)
    (e : Envelope T) (he : e ∈ inbox) : e.sender ≠ r :=
  runNet_selffree calls (Network.new seed) netF outs hrun
    (by
      intro r2 inbox2 hin2
      simp [Network.new, lookupInbox] at hin2) r inbox hin e he

/-- Witness for `no_self_delivery` on a concrete run. -/
theorem no_self_delivery_witness :
    runNet (Network.new ([] : Rng)) [Call.addPeer 0, Call.addPeer 1, Call.broadcast 0 [(5 : Nat)]]
        = some (⟨[(0, []), (1, [⟨5, 0⟩])], [5], []⟩, []) ∧
      (Envelope.mk (5 : Nat) 0).sender ≠ 1 :=
  ⟨by decide,
    no_self_delivery [] [Call.addPeer 0, Call.addPeer 1, Call.broadcast 0 [(5 : Nat)]]
      ⟨[(0, []), (1, [⟨5, 0⟩])], [5], []⟩ [] (by decide) 1 [⟨5, 0⟩] (by decide)
      ⟨5, 0⟩ (by decide)⟩

/-! ## C4: bounded duplication -/

theorem copies_append [DecidableEq T] (s : Nat) (m : T) (l1 l2 : List (Envelope T)) :
    copies s m (l1 ++ l2) = copies s m l1 + copies s m l2 := by
  induction l1 with
  | nil => simp [copies]
  | cons e rest ih => simp [copies, ih, Nat.add_assoc]

theorem copies_replicate [DecidableEq T] (s : Nat) (m : T) (a : Envelope T) (k : Nat) :
    copies s m (List.replicate k a) = if a = ⟨m, s⟩ then k else 0 := by
  induction k with
  | zero => simp [copies]
  | succ k ih =>
    rw [List.replicate_succ]
    simp only [copies, ih]
    by_cases h : a = ⟨m, s⟩
    · simp [h]
      omega
    · simp [h]

theorem copies_filter_self [DecidableEq T] (s : Nat) (m : T) (l : List (Envelope T)) :
    copies s m l = copies s m (senderFilter s l) := by
  induction l with
  | nil => rfl
  | cons e rest ih =>
    by_cases h : e = ⟨m, s⟩
    · subst h
      have hs : ((⟨m, s⟩ : Envelope T).sender == s) = true := by simp
      simp [copies, senderFilter, List.filter_cons, hs]
      exact ih
    · by_cases h2 : (e.sender == s) = true
      · simp [copies, senderFilter, List.filter_cons, h2, h]
        exact ih
      · simp only [Bool.not_eq_true] at h2
        simp [copies, senderFilter, List.filter_cons, h2, h]
        exact ih

theorem Blocks_copies [DecidableEq T] {s : Nat} {ms : List T} {Q : List (Envelope T)}
    (hb : Blocks s ms Q) (m : T) :
    occCount m ms ≤ copies s m Q ∧ copies s m Q ≤ 3 * occCount m ms := by
  induction hb with
  | nil => simp [occCount, copies]
  | cons m' k hk1 hk3 _ ih =>
    obtain ⟨ih1, ih2⟩ := ih
    rw [copies_append, copies_replicate]
    simp only [occCount]
    by_cases h : m' = m
    · subst h
      rw [if_pos rfl, if_pos rfl]
      constructor <;> omega
    · have hne : (⟨m', s⟩ : Envelope T) ≠ ⟨m, s⟩ := by simp [h]
      rw [if_neg hne, if_neg h]
      constructor <;> omega

/-- C4 counterexample: when a message value occurs twice in one
`broadcast` call, each occurrence contributes its own `1..=3` copies;
with a seed drawing 3 both times, receiver 1 gets 6 copies of message 5
from `broadcast(0, [5, 5])` — more than the claimed maximum of 3. -/
theorem duplication_counterexample :
    runNet (Network.new ([2, 0, 0, 0, 2, 0, 0, 0] : Rng))
        [Call.addPeer 0, Call.addPeer 1, Call.broadcast 0 [(5 : Nat), 5]]
      = some (⟨[(0, []), (1, List.replicate 6 ⟨5, 0⟩)], [5, 5], []⟩, []) ∧
      copies 0 (5 : Nat) (List.replicate 6 (⟨5, 0⟩ : Envelope Nat)) = 6 ∧
      ¬ (6 : Nat) ≤ 3 := by
  refine ⟨by decide, by decide, by omega⟩

/-- C4 amended: one `broadcast(s, ms)` call adds, for each registered
receiver `r ≠ s` and each message value `m`, exactly `d` fresh copies of
`⟨m, s⟩` to `r`'s inbox where `c ≤ d ≤ 3·c` and `c` is the number of
occurrences of `m` in `ms` (so for a value occurring once, between 1 and
3 copies, and never zero — the counterexample forces counting per
occurrence). -/
theorem bounded_duplication_amended {T : Type} [DecidableEq T] (net : Network T)
    (s : Nat) (ms : List T) (r : Nat) (hr : r ≠ s)
    (inbox inbox' : List (Envelope T))
    (h : lookupInbox r net.inboxes = some inbox)
    (h' : lookupInbox r (net.broadcast s ms).inboxes = some inbox')
    (m : T) :
    ∃ d, copies s m inbox' = copies s m inbox + d ∧
      occCount m ms ≤ d ∧ d ≤ 3 * occCount m ms := by
  have hb : (net.broadcast s ms).inboxes = (broadcastInboxes s ms net.inboxes net.rng).1 := rfl
  rw [hb] at h'
  obtain ⟨inbox0, hl0, hd⟩ := broadcastInboxes_lookup s ms net.inboxes net.rng r inbox' h'
  rw [h] at hl0
  injection hl0 with hl0
  subst hl0
  rcases hd with ⟨hrs, _⟩ | ⟨_, Q, hQ, hsf, _, _⟩
  · exact absurd hrs hr
  · obtain ⟨hc1, hc2⟩ := Blocks_copies hQ m
    refine ⟨copies s m Q, ?_, hc1, hc2⟩
    rw [copies_filter_self s m inbox', hsf, copies_append, ← copies_filter_self]

/-- Witness for `bounded_duplication_amended` on a concrete broadcast. -/
theorem bounded_duplication_amended_witness :
    lookupInbox 1 [(0, ([] : List (Envelope Nat))), (1, [])] = some [] ∧
      lookupInbox 1 (Network.broadcast ⟨[(0, []), (1, [])], [], []⟩ 0 [(5 : Nat)]).inboxes
        = some [⟨5, 0⟩] ∧
      ∃ d, copies 0 (5 : Nat) [⟨5, 0⟩] = copies 0 (5 : Nat) [] + d ∧
        occCount (5 : Nat) [5] ≤ d ∧ d ≤ 3 * occCount (5 : Nat) [5] :=
  ⟨by decide, by decide,
    bounded_duplication_amended ⟨[(0, []), (1, [])], [], []⟩ 0 [5] 1 (by decide)
      [] [⟨5, 0⟩] (by decide) (by decide) 5⟩

/-! ## C6: the all_messages log -/

theorem runNet_log {T : Type} :
    ∀ (calls : List (Call T)) (net netF : Network T) (outs : List (List T)),
      runNet net calls = some (netF, outs) →
      netF.all_messages = net.all_messages ++ broadcastLog calls := by
  intro calls
  induction calls with
  | nil =>
    intro net netF outs hrun
    simp only [runNet, Option.some.injEq, Prod.mk.injEq] at hrun
    obtain ⟨rfl, rfl⟩ := hrun
    simp [broadcastLog]
  | cons c cs ih =>
    intro net netF outs hrun
    cases c with
    | addPeer id =>
      have h2 := ih (net.add_peer id) netF outs hrun
      simpa [broadcastLog, Network.add_peer] using h2
    | broadcast s' ms' =>
      have h2 := ih (net.broadcast s' ms') netF outs hrun
      rw [show (net.broadcast s' ms').all_messages = net.all_messages ++ ms' from rfl] at h2
      rw [h2]
      show _ = net.all_messages ++ (ms' ++ broadcastLog cs)
      rw [List.append_assoc]
    | receive r' =>
      obtain ⟨out, net', outs2, hrec, hrn, rfl⟩ :=
        runNet_receive_inversion net r' cs netF outs hrun
      obtain ⟨inbox0, _, _, _, hall, _⟩ := receive_inversion net r' out net' hrec
      have h2 := ih net' netF outs2 hrn
      rw [hall] at h2
      simpa [broadcastLog] using h2

/-- C6: after any call sequence from a fresh network, `all_messages` is
exactly the concatenation, in call order, of every broadcast's message
list (undeduplicated, order preserved); `receive` removes nothing from
it. -/
theorem all_messages_log {T : Type} (seed : Rng) (calls : List (Call T))
    (netF : Network T) (outs : List (List T))
    (hrun : runNet (Network.new seed) calls = some (netF, outs)) :
    netF.all_messages = broadcastLog calls := by
  have h2 := runNet_log calls (Network.new seed) netF outs hrun
  simpa [Network.new] using h2

/-- Witness for `all_messages_log` on a run that includes a `receive`. -/
theorem all_messages_log_witness :
    runNet (Network.new ([0] : Rng))
        [Call.addPeer 0, Call.addPeer 1, Call.broadcast 0 [(5 : Nat)], Call.receive 1]
      = some (⟨[(0, []), (1, [⟨5, 0⟩])], [5], []⟩, [[]]) ∧
      (Network.mk [(0, []), (1, [(⟨5, 0⟩ : Envelope Nat)])] [5] []).all_messages
        = broadcastLog [Call.addPeer 0, Call.addPeer 1, Call.broadcast 0 [(5 : Nat)], Call.receive 1] :=
  ⟨by decide,
    all_messages_log [0] [Call.addPeer 0, Call.addPeer 1, Call.broadcast 0 [(5 : Nat)], Call.receive 1]
      ⟨[(0, []), (1, [⟨5, 0⟩])], [5], []⟩ [[]] (by decide)⟩

/-! ## C5: receive drains a random prefix -/

/-- C5: for a registered receiver, `receive` removes exactly a prefix of
the inbox whose length is drawn from `[0, inbox.len()]` inclusive (and
every length in that range is realizable by some PRNG stream), returns
the payload messages of that prefix in inbox order, and leaves the
remaining suffix of the inbox — and everything else — unchanged. -/
theorem receive_drains_front (net : Network T) (receiver : Nat) (inbox : List (Envelope T))
    (h : lookupInbox receiver net.inboxes = some inbox) :
    ∃ count ≤ inbox.length,
      net.receive receiver = some ((inbox.take count).map Envelope.message,
        { inboxes := updateInbox receiver (inbox.drop count) net.inboxes,
          all_messages := net.all_messages,
          rng := (genRange net.rng 0 (inbox.length + 1)).2 }) ∧
      (∀ c ≤ inbox.length, ∃ rng0 : Rng, (genRange rng0 0 (inbox.length + 1)).1 = c) := by
  refine ⟨(genRange net.rng 0 (inbox.length + 1)).1, ?_, ?_, ?_⟩
  · have := genRange_fst_lt net.rng 0 (inbox.length + 1) (by omega)
    omega
  · simp [Network.receive, h]
  · intro c hc
    exact ⟨[c], by simp [genRange, Nat.mod_eq_of_lt (by omega : c < inbox.length + 1)]⟩

/-- Witness for `receive_drains_front` on a concrete one-envelope network. -/
theorem receive_drains_front_witness :
    lookupInbox 1 [(1, [(⟨7, 0⟩ : Envelope Nat)])] = some [⟨7, 0⟩] ∧
      ∃ count ≤ [(⟨7, 0⟩ : Envelope Nat)].length,
        Network.receive ⟨[(1, [⟨7, 0⟩])], [7], [0]⟩ 1
          = some (([(⟨7, 0⟩ : Envelope Nat)].take count).map Envelope.message,
            { inboxes := updateInbox 1 ([(⟨7, 0⟩ : Envelope Nat)].drop count)
                [(1, [⟨7, 0⟩])],
              all_messages := [7],
              rng := (genRange [0] 0 ([(⟨7, 0⟩ : Envelope Nat)].length + 1)).2 }) ∧
        (∀ c ≤ [(⟨7, 0⟩ : Envelope Nat)].length,
          ∃ rng0 : Rng, (genRange rng0 0 ([(⟨7, 0⟩ : Envelope Nat)].length + 1)).1 = c) :=
  ⟨rfl, receive_drains_front ⟨[(1, [⟨7, 0⟩])], [7], [0]⟩ 1 [⟨7, 0⟩] rfl⟩

/-! ## C7: fake-server connect error cases -/

/-- C7: `connect` fails with exactly "server is forbidding connections"
for a forbidden new connection, with exactly "server is forbidding
reconnections" for a forbidden reconnection (checked before the token),
and with exactly "cannot re-establish connection" when reconnecting with
no stored connection or a different token; in every error case the
state (stored connection and flags) is unchanged. -/
theorem connect_error_cases (st : FakeServerState) (opts : ConnectionOptions)
    (fresh : FreshHandles) :
    (opts.is_reconnection = false → st.forbid_new_connections = true →
      connect st opts fresh = (st, Except.error "server is forbidding connections")) ∧
    (opts.is_reconnection = true → st.forbid_reconnections = true →
      connect st opts fresh = (st, Except.error "server is forbidding reconnections")) ∧
    (opts.is_reconnection = true → st.forbid_reconnections = false →
      (∀ c, st.connection = some c → c.token ≠ opts.connection_token) →
      connect st opts fresh = (st, Except.error "cannot re-establish connection")) := by
  refine ⟨?_, ?_, ?_⟩
  · intro h1 h2
    simp [connect, h1, h2]
  · intro h1 h2
    simp [connect, h1, h2]
  · intro h1 h2 h3
    cases hc : st.connection with
    | none => simp [connect, h1, h2, hc]
    | some c => simp [connect, h1, h2, hc, h3 c hc]

/-- Witness for `connect_error_cases`: all three error cases at concrete
states. -/
theorem connect_error_cases_witness :
    connect ⟨none, true, false⟩ ⟨false, 0⟩ ⟨1, 2, 3, 4⟩
        = (⟨none, true, false⟩, Except.error "server is forbidding connections") ∧
      connect ⟨none, false, true⟩ ⟨true, 0⟩ ⟨1, 2, 3, 4⟩
        = (⟨none, false, true⟩, Except.error "server is forbidding reconnections") ∧
      connect ⟨some ⟨9, 8, 7, 6⟩, false, false⟩ ⟨true, 0⟩ ⟨1, 2, 3, 4⟩
        = (⟨some ⟨9, 8, 7, 6⟩, false, false⟩, Except.error "cannot re-establish connection") :=
  ⟨(connect_error_cases ⟨none, true, false⟩ ⟨false, 0⟩ ⟨1, 2, 3, 4⟩).1 rfl rfl,
    (connect_error_cases ⟨none, false, true⟩ ⟨true, 0⟩ ⟨1, 2, 3, 4⟩).2.1 rfl rfl,
    (connect_error_cases ⟨some ⟨9, 8, 7, 6⟩, false, false⟩ ⟨true, 0⟩ ⟨1, 2, 3, 4⟩).2.2 rfl rfl
      (by intro c hc; injection hc with h; subst h; decide)⟩

/-! ## C8: reconnect frame effect -/

/-- C8: when `connect` succeeds on the reconnection path (reconnections
allowed, stored token matches), the stored connection keeps its `id`,
`incoming` stream and `token`; only the kill sink is replaced with the
fresh one, and the client end of the fresh transport is returned. -/
theorem reconnect_frame_effect (st : FakeServerState) (opts : ConnectionOptions)
    (fresh : FreshHandles) (c : Connection)
    (hre : opts.is_reconnection = true) (hf : st.forbid_reconnections = false)
    (hc : st.connection = some c) (ht : c.token = opts.connection_token) :
    connect st opts fresh =
      ({ st with connection := some { c with kill_tx := fresh.kill_tx } },
        Except.ok fresh.client_conn) ∧
      ∃ c', (connect st opts fresh).1.connection = some c' ∧
        c'.id = c.id ∧ c'.incoming = c.incoming ∧ c'.token = c.token ∧
        c'.kill_tx = fresh.kill_tx := by
  have h1 : connect st opts fresh =
      ({ st with connection := some { c with kill_tx := fresh.kill_tx } },
        Except.ok fresh.client_conn) := by
    simp [connect, hre, hf, hc, ht]
  exact ⟨h1, { c with kill_tx := fresh.kill_tx }, by rw [h1], rfl, rfl, rfl, rfl⟩

/-- Witness for `reconnect_frame_effect` at a concrete state. -/
theorem reconnect_frame_effect_witness :
    connect ⟨some ⟨9, 8, 7, 6⟩, false, false⟩ ⟨true, 7⟩ ⟨1, 2, 3, 4⟩
        = (⟨some ⟨9, 8, 7, 3⟩, false, false⟩, Except.ok 4) ∧
      ∃ c', (connect ⟨some ⟨9, 8, 7, 6⟩, false, false⟩ ⟨true, 7⟩ ⟨1, 2, 3, 4⟩).1.connection
          = some c' ∧
        c'.id = 9 ∧ c'.incoming = 8 ∧ c'.token = 7 ∧ c'.kill_tx = 3 :=
  reconnect_frame_effect ⟨some ⟨9, 8, 7, 6⟩, false, false⟩ ⟨true, 7⟩ ⟨1, 2, 3, 4⟩
    ⟨9, 8, 7, 6⟩ rfl rfl rfl rfl

/-! ## C10: add_peer on a registered id silently resets the inbox -/

/-- C10: `add_peer` performs no registration check: on an
already-registered id it replaces that replica's inbox with a fresh
empty one (discarding undelivered envelopes) without failing, and leaves
every other inbox, `all_messages` and the PRNG unchanged. -/
theorem add_peer_overwrites (net : Network T) (id : Nat) (inbox : List (Envelope T))
    (_h : lookupInbox id net.inboxes = some inbox) :
    lookupInbox id (net.add_peer id).inboxes = some [] ∧
      (∀ r, r ≠ id → lookupInbox r (net.add_peer id).inboxes = lookupInbox r net.inboxes) ∧
      (net.add_peer id).all_messages = net.all_messages ∧
      (net.add_peer id).rng = net.rng :=
  ⟨lookup_insertPeer_self id net.inboxes,
    fun r hr => lookup_insertPeer_other id r hr net.inboxes, rfl, rfl⟩

/-- Witness for `add_peer_overwrites`: a registered replica with one
pending envelope loses it. -/
theorem add_peer_overwrites_witness :
    lookupInbox 0 [(0, [(⟨3, 1⟩ : Envelope Nat)])] = some [⟨3, 1⟩] ∧
      lookupInbox 0 (Network.add_peer ⟨[(0, [(⟨3, 1⟩ : Envelope Nat)])], [], []⟩ 0).inboxes
          = some [] ∧
      (∀ r, r ≠ 0 →
        lookupInbox r (Network.add_peer ⟨[(0, [(⟨3, 1⟩ : Envelope Nat)])], [], []⟩ 0).inboxes
          = lookupInbox r [(0, [(⟨3, 1⟩ : Envelope Nat)])]) ∧
      (Network.add_peer ⟨[(0, [(⟨3, 1⟩ : Envelope Nat)])], [], []⟩ 0).all_messages = [] ∧
      (Network.add_peer ⟨[(0, [(⟨3, 1⟩ : Envelope Nat)])], [], []⟩ 0).rng = [] :=
  ⟨rfl, add_peer_overwrites ⟨[(0, [(⟨3, 1⟩ : Envelope Nat)])], [], []⟩ 0 [⟨3, 1⟩] rfl⟩

/-! ## C9: sample_text -/

theorem joinLines_cons_cons (l l2 : List Char) (ls : List (List Char)) :
    joinLines (l :: l2 :: ls) = l ++ Char.ofNat 10 :: joinLines (l2 :: ls) := rfl

theorem joinLines_append_single (ls : List (List Char)) (x : List Char) (h : ls ≠ []) :
    joinLines (ls ++ [x]) = joinLines ls ++ Char.ofNat 10 :: x := by
  induction ls with
  | nil => exact absurd rfl h
  | cons l ls ih =>
    cases ls with
    | nil => rfl
    | cons l2 ls2 =>
      have h2 := ih (List.cons_ne_nil l2 ls2)
      show joinLines (l :: ((l2 :: ls2) ++ [x])) = _
      rw [show l :: ((l2 :: ls2) ++ [x]) = l :: l2 :: (ls2 ++ [x]) from rfl,
        joinLines_cons_cons,
        show l2 :: (ls2 ++ [x]) = (l2 :: ls2) ++ [x] from rfl, h2,
        joinLines_cons_cons]
      simp

theorem frontChars_succ (cols n : Nat) :
    frontChars cols (n + 1)
      = frontChars cols n ++ (List.replicate cols (rustChar n) ++ [Char.ofNat 10]) := by
  unfold frontChars
  rw [List.range_succ, List.foldl_append]
  rfl

theorem sampleChars_succ (n cols : Nat) :
    (List.range (n + 1)).foldl (fun t r => t ++ sampleLineChars (n + 1) cols r) []
      = frontChars cols n ++ List.replicate cols (rustChar n) := by
  rw [List.range_succ, List.foldl_append]
  have h1 : (List.range n).foldl (fun t r => t ++ sampleLineChars (n + 1) cols r) []
      = frontChars cols n := by
    unfold frontChars
    apply List.foldl_ext
    intro a r hr
    have hcond : r < n := List.mem_range.mp hr
    simp [sampleLineChars, hcond]
  rw [h1]
  simp [sampleLineChars]

theorem joinLines_range_succ (n cols : Nat) :
    joinLines ((List.range (n + 1)).map fun i => List.replicate cols (rustChar i))
      = frontChars cols n ++ List.replicate cols (rustChar n) := by
  induction n with
  | zero => simp [joinLines, frontChars, List.range_succ, List.range_zero]
  | succ n ih =>
    rw [List.range_succ (n := n + 1), List.map_append,
      show List.map (fun i => List.replicate cols (rustChar i)) [n + 1]
        = [List.replicate cols (rustChar (n + 1))] from rfl,
      joinLines_append_single _ _ (by simp [List.range_succ]), ih, frontChars_succ]
    simp [List.append_assoc]

set_option maxRecDepth 40000 in
/-- C9 counterexample: `sample_text` truncates the row character to a
byte, so at 160 rows line 159 is NUL characters, not `'a' + 159`; the
text claimed for all `rows`/`cols` differs from the code's output. -/
theorem sample_text_counterexample :
    sample_text 160 1 ≠ sample_text_claimed 160 1 := by
  decide

/-- C9 amended: for all `rows` and `cols`, `sample_text` returns `rows`
lines joined by single newlines with no trailing newline, where line `i`
is the character with code `(97 + i) % 256` — `'a' + i` truncated to a
byte — repeated `cols` times; in particular
`sample_text 3 2 = "aa\nbb\ncc"`. -/
theorem sample_text_amended :
    (∀ rows cols, sample_text rows cols = sample_text_mod rows cols) ∧
      sample_text 3 2 = "aa\nbb\ncc" := by
  constructor
  · intro rows cols
    cases rows with
    | zero => rfl
    | succ n =>
      unfold sample_text sample_text_mod
      exact congrArg String.mk
        ((sampleChars_succ n cols).trans (joinLines_range_succ n cols).symm)
  · decide

end Spec2Proof
